import Mathlib

/-!
Verification development for the Cleen retrieval-augmented-generation system.

The repository ships the presentation layer (React `App.js`), the deployment
scripts (`deploy.sh`), and documentation describing the backend
(`README.md`, project docs).  The backend core (ingestion pipeline, chunker,
classifier, citation extractor, query orchestrator, session store) is
documented in the specification but its Python sources are not part of the
checked-in tree, so those components are modelled here from the
words of the specification; definitions carry a `Modelled from the spec:`
note in that case.  Components whose code is present (`App.js`,
`deploy.sh`) are embedded directly from the source.

Texts are represented as `List Char` so that word splitting and
normalization are fully executable and provable.
-/

namespace Cleen

/-! ## Text utilities: whitespace word splitting and joining -/

/-- Whitespace test used by tokenization and normalization. -/
def isWS (c : Char) : Bool := c = ' ' || c = '\n' || c = '\t' || c = '\r'

/-- Accumulator-based whitespace splitter: `acc` holds the current word
reversed; whitespace runs are collapsed and empty words dropped. -/
def splitWordsAux : List Char → List Char → List (List Char)
  | [], acc => if acc = [] then [] else [acc.reverse]
  | c :: cs, acc =>
    if isWS c then
      if acc = [] then splitWordsAux cs [] else acc.reverse :: splitWordsAux cs []
    else splitWordsAux cs (c :: acc)

/-- Splits a text into its whitespace-separated words. -/
def splitWords (t : List Char) : List (List Char) := splitWordsAux t []

/-- Joins words with single spaces. -/
def joinWords : List (List Char) → List Char
  | [] => []
  | [w] => w
  | w :: ws => w ++ ' ' :: joinWords ws

/-- A good word is nonempty and contains no whitespace: exactly the shape of
the words `splitWords` produces. -/
def goodWord (w : List Char) : Prop := w ≠ [] ∧ ∀ c ∈ w, isWS c = false

theorem splitWordsAux_word (w : List Char) (hw : ∀ c ∈ w, isWS c = false) :
    ∀ (cs acc : List Char),
      splitWordsAux (w ++ cs) acc = splitWordsAux cs (w.reverse ++ acc) := by
  induction w with
  | nil => intro cs acc; simp
  | cons c w ih =>
    intro cs acc
    have hc : isWS c = false := hw c (List.mem_cons_self c w)
    have hw' : ∀ c ∈ w, isWS c = false := fun d hd => hw d (List.mem_cons_of_mem c hd)
    simp only [List.cons_append, splitWordsAux, hc, Bool.false_eq_true, if_false]
    exact (ih hw' cs (c :: acc)).trans (by simp)

theorem splitWords_joinWords (ws : List (List Char)) (h : ∀ w ∈ ws, goodWord w) :
    splitWords (joinWords ws) = ws := by
  induction ws with
  | nil => rfl
  | cons w ws ih =>
    obtain ⟨hne, hgood⟩ := h w (List.mem_cons_self w ws)
    have h' : ∀ v ∈ ws, goodWord v := fun v hv => h v (List.mem_cons_of_mem w hv)
    cases ws with
    | nil =>
      show splitWordsAux (joinWords [w]) [] = [w]
      have : joinWords [w] = w ++ [] := by simp [joinWords]
      rw [this, splitWordsAux_word w hgood [] []]
      simp [splitWordsAux, hne]
    | cons v vs =>
      show splitWordsAux (joinWords (w :: v :: vs)) [] = w :: (v :: vs)
      have hj : joinWords (w :: v :: vs) = w ++ ' ' :: joinWords (v :: vs) := rfl
      rw [hj, splitWordsAux_word w hgood (' ' :: joinWords (v :: vs)) []]
      have hwr : w.reverse ++ [] = w.reverse := by simp
      rw [hwr]
      have hws : isWS ' ' = true := rfl
      have hrne : w.reverse ≠ [] := by simpa using hne
      simp only [splitWordsAux, hws, if_true, hrne, if_false, List.reverse_reverse]
      have htail := ih h'
      simp only [splitWords] at htail
      rw [htail]

theorem splitWordsAux_good (t : List Char) :
    ∀ acc : List Char, (∀ c ∈ acc, isWS c = false) →
      ∀ w ∈ splitWordsAux t acc, goodWord w := by
  induction t with
  | nil =>
    intro acc hacc w hw
    by_cases h : acc = []
    · simp [splitWordsAux, h] at hw
    · simp only [splitWordsAux, h, if_false, List.mem_singleton] at hw
      subst hw
      refine ⟨by simpa using h, ?_⟩
      intro c hc
      exact hacc c (List.mem_reverse.mp hc)
  | cons c cs ih =>
    intro acc hacc w hw
    by_cases hws : isWS c = true
    · by_cases h : acc = []
      · simp only [splitWordsAux, hws, if_true, h, if_true] at hw
        exact ih [] (by simp) w hw
      · simp only [splitWordsAux, hws, if_true, h, if_false, List.mem_cons] at hw
        rcases hw with hw | hw
        · subst hw
          refine ⟨by simpa using h, ?_⟩
          intro d hd
          exact hacc d (List.mem_reverse.mp hd)
        · exact ih [] (by simp) w hw
    · have hws' : isWS c = false := by simpa using hws
      simp only [splitWordsAux, hws', Bool.false_eq_true, if_false] at hw
      refine ih (c :: acc) ?_ w hw
      intro d hd
      rcases List.mem_cons.mp hd with hd | hd
      · subst hd; exact hws'
      · exact hacc d hd

theorem splitWords_good (t : List Char) : ∀ w ∈ splitWords t, goodWord w :=
  splitWordsAux_good t [] (by simp)

theorem joinWords_append (g₁ g₂ : List (List Char)) (h₁ : g₁ ≠ []) (h₂ : g₂ ≠ []) :
    joinWords (g₁ ++ g₂) = joinWords g₁ ++ ' ' :: joinWords g₂ := by
  induction g₁ with
  | nil => exact absurd rfl h₁
  | cons w ws ih =>
    cases ws with
    | nil =>
      cases g₂ with
      | nil => exact absurd rfl h₂
      | cons v vs => simp [joinWords]
    | cons u us =>
      have := ih (by simp)
      show joinWords (w :: ((u :: us) ++ g₂)) = (w ++ ' ' :: joinWords (u :: us)) ++ ' ' :: joinWords g₂
      have hstep : joinWords (w :: ((u :: us) ++ g₂)) = w ++ ' ' :: joinWords ((u :: us) ++ g₂) := rfl
      rw [hstep, this]
      simp

theorem joinWords_map_flatten (groups : List (List (List Char)))
    (h : ∀ g ∈ groups, g ≠ []) :
    joinWords (groups.map joinWords) = joinWords groups.flatten := by
  induction groups with
  | nil => rfl
  | cons g gs ih =>
    have hg : g ≠ [] := h g (List.mem_cons_self g gs)
    have h' : ∀ g' ∈ gs, g' ≠ [] := fun g' hg' => h g' (List.mem_cons_of_mem g hg')
    cases gs with
    | nil => simp [joinWords]
    | cons g₂ gs₂ =>
      have hflat_ne : (g₂ :: gs₂).flatten ≠ [] := by
        have hg₂ : g₂ ≠ [] := h' g₂ (List.mem_cons_self g₂ gs₂)
        cases g₂ with
        | nil => exact absurd rfl hg₂
        | cons x xs => simp
      have hmap : joinWords ((g :: g₂ :: gs₂).map joinWords) =
          joinWords g ++ ' ' :: joinWords ((g₂ :: gs₂).map joinWords) := by
        simp only [List.map_cons]
        rfl
      rw [hmap, ih h']
      have hflat : (g :: g₂ :: gs₂).flatten = g ++ (g₂ :: gs₂).flatten := by simp
      rw [hflat, joinWords_append g (g₂ :: gs₂).flatten hg hflat_ne]

/-! ## Chunker

Modelled from the spec: the chunker code (`backend/document_processor.py`)
is not in the checked-in tree.  Per spec §4.1: split document text into
non-overlapping windows of at most `max_chunk_tokens` (default 512) tokens
at whitespace breaks; tokens are modelled as whitespace-separated words. -/

/-- Groups a token list into consecutive windows of at most `maxTok` tokens. -/
def chunkTokens (maxTok : Nat) (toks : List (List Char)) : List (List (List Char)) :=
  if h : maxTok = 0 ∨ toks = [] then [] else
    toks.take maxTok :: chunkTokens maxTok (toks.drop maxTok)
termination_by toks.length
decreasing_by
  push_neg at h
  have h1 : 0 < toks.length := List.length_pos.mpr h.2
  simp only [List.length_drop]
  omega

/-- Modelled from the spec: the `Chunk` record of §3, with `chunk_id`
deterministic from `(document_path, sequence_index)`. -/
structure Chunk where
  chunk_id : String × Nat
  document_path : String
  sequence_index : Nat
  text : List Char
  token_count : Nat
deriving DecidableEq, Repr

/-- Default chunk-size limit (spec §4.1 and README: 512-token chunks). -/
def maxChunkTokens : Nat := 512

/-- Modelled from the spec: splits the text of a document into chunks of at most
`maxTok` tokens each, numbered by `sequence_index` in document order. -/
def chunkDocument (maxTok : Nat) (path : String) (content : List Char) : List Chunk :=
  (chunkTokens maxTok (splitWords content)).enum.map
    (fun p => ⟨(path, p.1), path, p.1, joinWords p.2, p.2.length⟩)

theorem chunkTokens_flatten (maxTok : Nat) (hm : maxTok ≠ 0) (toks : List (List Char)) :
    (chunkTokens maxTok toks).flatten = toks := by
  have hgen : ∀ n (l : List (List Char)), l.length = n → (chunkTokens maxTok l).flatten = l := by
    intro n
    induction n using Nat.strong_induction_on with
    | _ n ih =>
      intro l hn
      rw [chunkTokens]
      split
      · next h =>
        rcases h with h | h
        · exact absurd h hm
        · simp [h]
      · next h =>
        push_neg at h
        have hlt : (l.drop maxTok).length < n := by
          subst hn
          have h1 : 0 < l.length := List.length_pos.mpr h.2
          simp only [List.length_drop]
          omega
        have ih' := ih _ hlt (l.drop maxTok) rfl
        simp [ih']
  exact hgen toks.length toks rfl

theorem chunkTokens_groups (maxTok : Nat) (toks : List (List Char)) :
    ∀ g ∈ chunkTokens maxTok toks, g.length ≤ maxTok ∧ g ≠ [] := by
  have hgen : ∀ n (l : List (List Char)), l.length = n →
      ∀ g ∈ chunkTokens maxTok l, g.length ≤ maxTok ∧ g ≠ [] := by
    intro n
    induction n using Nat.strong_induction_on with
    | _ n ih =>
      intro l hn
      rw [chunkTokens]
      split
      · simp
      · next h =>
        push_neg at h
        intro g hg
        rcases List.mem_cons.mp hg with hg | hg
        · subst hg
          refine ⟨l.length_take_le maxTok, ?_⟩
          simp only [ne_eq, List.take_eq_nil_iff]
          push_neg
          constructor
          · exact h.1
          · exact h.2
        · have hlt : (l.drop maxTok).length < n := by
            subst hn
            have h1 : 0 < l.length := List.length_pos.mpr h.2
            simp only [List.length_drop]
            omega
          exact ih _ hlt (l.drop maxTok) rfl g hg
  exact hgen toks.length toks rfl

/-- Claim C3: for every document processed by the chunker, concatenating
its chunk texts in sequence order reconstructs the original document text
modulo whitespace normalization (equal word sequences), every chunk
satisfies `token_count ≤ maxTok`, and the sequence indices `0, 1, ...`
partition the document with no overlap between chunks. -/
theorem chunk_partition (maxTok : Nat) (path : String) (content : List Char)
    (hm : maxTok ≠ 0) :
    splitWords (joinWords ((chunkDocument maxTok path content).map Chunk.text)) =
      splitWords content ∧
    (∀ c ∈ chunkDocument maxTok path content, c.token_count ≤ maxTok) ∧
    (chunkDocument maxTok path content).map Chunk.sequence_index =
      List.range (chunkDocument maxTok path content).length := by
  refine ⟨?_, ?_, ?_⟩
  · have htext : (chunkDocument maxTok path content).map Chunk.text =
        (chunkTokens maxTok (splitWords content)).map joinWords := by
      simp only [chunkDocument, List.map_map]
      have := List.enum_map_snd (chunkTokens maxTok (splitWords content))
      calc (chunkTokens maxTok (splitWords content)).enum.map
            (Chunk.text ∘ fun p => (⟨(path, p.1), path, p.1, joinWords p.2, p.2.length⟩ : Chunk))
          = (chunkTokens maxTok (splitWords content)).enum.map (joinWords ∘ Prod.snd) := rfl
        _ = ((chunkTokens maxTok (splitWords content)).enum.map Prod.snd).map joinWords := by
            rw [List.map_map]
        _ = (chunkTokens maxTok (splitWords content)).map joinWords := by rw [this]
    rw [htext]
    have hne : ∀ g ∈ chunkTokens maxTok (splitWords content), g ≠ [] :=
      fun g hg => (chunkTokens_groups maxTok (splitWords content) g hg).2
    rw [joinWords_map_flatten _ hne, chunkTokens_flatten maxTok hm (splitWords content)]
    exact splitWords_joinWords (splitWords content) (splitWords_good content)
  · intro c hc
    simp only [chunkDocument, List.mem_map] at hc
    obtain ⟨p, hp, hc⟩ := hc
    have hsnd : p.2 ∈ (chunkTokens maxTok (splitWords content)).enum.map Prod.snd :=
      List.mem_map_of_mem Prod.snd hp
    rw [List.enum_map_snd] at hsnd
    have := (chunkTokens_groups maxTok (splitWords content) p.2 hsnd).1
    rw [← hc]
    exact this
  · simp only [chunkDocument, List.map_map, List.length_map]
    have hfst : (chunkTokens maxTok (splitWords content)).enum.map
        (Chunk.sequence_index ∘ fun p => (⟨(path, p.1), path, p.1, joinWords p.2, p.2.length⟩ : Chunk)) =
        (chunkTokens maxTok (splitWords content)).enum.map Prod.fst := rfl
    rw [hfst, List.enum_map_fst, List.enum_length]

/-- Concrete instantiation of `chunk_partition`: a 5-word document split
with a 2-token window; also checks the spec scenario shape (more tokens
than the limit produce several chunks). -/
theorem chunk_partition_witness :
    (2 : Nat) ≠ 0 ∧
    (splitWords (joinWords ((chunkDocument 2 "doc.txt" "acne needs gentle daily care".toList).map Chunk.text)) =
      splitWords "acne needs gentle daily care".toList ∧
    (∀ c ∈ chunkDocument 2 "doc.txt" "acne needs gentle daily care".toList, c.token_count ≤ 2) ∧
    (chunkDocument 2 "doc.txt" "acne needs gentle daily care".toList).map Chunk.sequence_index =
      List.range (chunkDocument 2 "doc.txt" "acne needs gentle daily care".toList).length) :=
  ⟨by decide, chunk_partition 2 "doc.txt" "acne needs gentle daily care".toList (by decide)⟩

/-! ## Citation Extractor

Modelled from the spec: the extractor code (regex URL extraction in the
backend) is not in the checked-in tree.  Per spec §4.3: pure pattern
matching against known reference shapes (URLs, DOI, PMID), deduplicated,
order of first appearance preserved, capped at a configurable maximum. -/

/-- Modelled from the spec: a normalized reference string (spec §3). -/
structure Citation where
  identifier : List Char
deriving DecidableEq, Repr

/-- Recognizes the reference shapes of spec §4.3: full URLs, DOI strings,
and PMID-style identifiers. -/
def isCitationToken (w : List Char) : Bool :=
  "http://".toList.isPrefixOf w || "https://".toList.isPrefixOf w ||
  "doi:".toList.isPrefixOf w || "10.".toList.isPrefixOf w ||
  "PMID".toList.isPrefixOf w

/-- All citation-shaped words of one chunk text, in text order. -/
def matchesIn (t : List Char) : List (List Char) := (splitWords t).filter isCitationToken

/-- All citation-shaped words across the chunk texts, in input order. -/
def allMatches (chunkTexts : List (List Char)) : List (List Char) :=
  (chunkTexts.map matchesIn).flatten

/-- Default citation cap (README: exactly 2 relevant URLs; spec: 2–5). -/
def maxCitations : Nat := 2

/-- First-appearance deduplication: `seen` holds values already emitted. -/
def dedupFirstAux {α : Type} [DecidableEq α] : List α → List α → List α
  | [], _ => []
  | x :: xs, seen =>
    if x ∈ seen then dedupFirstAux xs seen else x :: dedupFirstAux xs (x :: seen)

/-- Deduplicates a list keeping the first occurrence of each value. -/
def dedupFirst {α : Type} [DecidableEq α] (l : List α) : List α := dedupFirstAux l []

/-- Modelled from the spec: `extract(chunk_texts) -> ordered sequence of
Citation`, deduplicated in order of first appearance, capped at `maxCount`. -/
def extract (maxCount : Nat) (chunkTexts : List (List Char)) : List Citation :=
  ((dedupFirst (allMatches chunkTexts)).take maxCount).map Citation.mk

theorem dedupFirstAux_mem {α : Type} [DecidableEq α] :
    ∀ (l seen : List α) (x : α), x ∈ dedupFirstAux l seen → x ∈ l ∧ x ∉ seen := by
  intro l
  induction l with
  | nil => intro seen x hx; simp [dedupFirstAux] at hx
  | cons y ys ih =>
    intro seen x hx
    by_cases hy : y ∈ seen
    · simp only [dedupFirstAux, hy, if_true] at hx
      obtain ⟨h1, h2⟩ := ih seen x hx
      exact ⟨List.mem_cons_of_mem y h1, h2⟩
    · simp only [dedupFirstAux, hy, if_false] at hx
      rcases List.mem_cons.mp hx with hx | hx
      · subst hx
        exact ⟨List.mem_cons_self x ys, hy⟩
      · obtain ⟨h1, h2⟩ := ih (y :: seen) x hx
        refine ⟨List.mem_cons_of_mem y h1, fun hc => h2 (List.mem_cons_of_mem y hc)⟩

theorem dedupFirstAux_nodup {α : Type} [DecidableEq α] :
    ∀ (l seen : List α), (dedupFirstAux l seen).Nodup := by
  intro l
  induction l with
  | nil => intro seen; simp [dedupFirstAux]
  | cons y ys ih =>
    intro seen
    by_cases hy : y ∈ seen
    · simp only [dedupFirstAux, hy, if_true]
      exact ih seen
    · simp only [dedupFirstAux, hy, if_false]
      refine List.nodup_cons.mpr ⟨?_, ih (y :: seen)⟩
      intro hc
      exact (dedupFirstAux_mem ys (y :: seen) y hc).2 (List.mem_cons_self y seen)

/-- Position of the first occurrence of `a` in `l` (length of `l` when absent). -/
def firstIdx {α : Type} [DecidableEq α] (a : α) : List α → Nat
  | [] => 0
  | x :: xs => if x = a then 0 else firstIdx a xs + 1

theorem firstIdx_cons_self {α : Type} [DecidableEq α] (a : α) (l : List α) :
    firstIdx a (a :: l) = 0 := by simp [firstIdx]

theorem firstIdx_cons_ne {α : Type} [DecidableEq α] (a x : α) (l : List α) (h : x ≠ a) :
    firstIdx a (x :: l) = firstIdx a l + 1 := by simp [firstIdx, h]

theorem dedupFirstAux_pairwise {α : Type} [DecidableEq α] :
    ∀ (l seen : List α),
      (dedupFirstAux l seen).Pairwise (fun a b => firstIdx a l < firstIdx b l) := by
  intro l
  induction l with
  | nil => intro seen; simp [dedupFirstAux]
  | cons y ys ih =>
    intro seen
    by_cases hy : y ∈ seen
    · simp only [dedupFirstAux, hy, if_true]
      refine (ih seen).imp_of_mem ?_
      intro a b ha hb hab
      have hay : a ≠ y := by
        intro h; subst h
        exact (dedupFirstAux_mem ys seen a ha).2 hy
      have hby : b ≠ y := by
        intro h; subst h
        exact (dedupFirstAux_mem ys seen b hb).2 hy
      rw [firstIdx_cons_ne a y ys (fun h => hay h.symm),
        firstIdx_cons_ne b y ys (fun h => hby h.symm)]
      omega
    · simp only [dedupFirstAux, hy, if_false]
      refine List.pairwise_cons.mpr ⟨?_, ?_⟩
      · intro b hb
        have hbne : b ≠ y := by
          intro h; subst h
          exact (dedupFirstAux_mem ys (b :: seen) b hb).2 (List.mem_cons_self b seen)
        rw [firstIdx_cons_self, firstIdx_cons_ne b y ys (fun h => hbne h.symm)]
        omega
      · refine (ih (y :: seen)).imp_of_mem ?_
        intro a b ha hb hab
        have hay : a ≠ y := by
          intro h; subst h
          exact (dedupFirstAux_mem ys (a :: seen) a ha).2 (List.mem_cons_self a seen)
        have hby : b ≠ y := by
          intro h; subst h
          exact (dedupFirstAux_mem ys (b :: seen) b hb).2 (List.mem_cons_self b seen)
        rw [firstIdx_cons_ne a y ys (fun h => hay h.symm),
          firstIdx_cons_ne b y ys (fun h => hby h.symm)]
        omega

/-- Claim C6: for every input sequence of chunk texts, `extract` returns
citations with no identifier repeated, each appearing in order of first
appearance among the citation-shaped words of the input, and never more
than the configured maximum count. -/
theorem extract_dedup_ordered_capped (maxCount : Nat) (chunkTexts : List (List Char)) :
    ((extract maxCount chunkTexts).map Citation.identifier).Nodup ∧
    (extract maxCount chunkTexts).length ≤ maxCount ∧
    ((extract maxCount chunkTexts).map Citation.identifier).Pairwise
      (fun a b => firstIdx a (allMatches chunkTexts) < firstIdx b (allMatches chunkTexts)) := by
  have hids : (extract maxCount chunkTexts).map Citation.identifier =
      (dedupFirst (allMatches chunkTexts)).take maxCount := by
    simp only [extract, List.map_map]
    have : Citation.identifier ∘ Citation.mk = id := rfl
    rw [this, List.map_id]
  have hsub : ((dedupFirst (allMatches chunkTexts)).take maxCount).Sublist
      (dedupFirst (allMatches chunkTexts)) := List.take_sublist maxCount _
  refine ⟨?_, ?_, ?_⟩
  · rw [hids]
    exact (dedupFirstAux_nodup (allMatches chunkTexts) []).sublist hsub
  · have : (extract maxCount chunkTexts).length =
        ((dedupFirst (allMatches chunkTexts)).take maxCount).length := by
      simp [extract]
    rw [this]
    exact List.length_take_le maxCount _
  · rw [hids]
    exact (dedupFirstAux_pairwise (allMatches chunkTexts) []).sublist hsub

/-! ## Intent & Segment Classifier

Modelled from the spec: the classifier code is not in the checked-in tree.
Per spec §4.2 and the README: a closed enumeration of five user segments
and six intent categories, each with a keyword table; score by counted
case-insensitive matches; pick the highest score, with a designated
fallback when all scores are zero.  Pure and deterministic. -/

/-- The closed segment enumeration (README: five user segments). -/
inductive Segment
  | acneProneConsumer
  | scienceFirst
  | busyProfessional
  | mensBeginner
  | postAcneHealer
deriving DecidableEq, Repr

/-- The closed intent-category enumeration (spec §4.2). -/
inductive IntentCategory
  | functional
  | emotional
  | social
  | situational
  | riskMitigation
  | cognitive
deriving DecidableEq, Repr

def allSegments : List Segment :=
  [.acneProneConsumer, .scienceFirst, .busyProfessional, .mensBeginner, .postAcneHealer]

def allIntents : List IntentCategory :=
  [.functional, .emotional, .social, .situational, .riskMitigation, .cognitive]

/-- Designated fallback segment used when every segment scores zero. -/
def fallbackSegment : Segment := .acneProneConsumer

/-- Designated fallback intent category. -/
def fallbackIntent : IntentCategory := .functional

/-- Modelled from the spec: the weighted keyword set of each segment. -/
def segmentKeywords : Segment → List (List Char)
  | .acneProneConsumer =>
    ["acne".toList, "pimple".toList, "breakout".toList, "blackhead".toList, "teen".toList]
  | .scienceFirst =>
    ["research".toList, "study".toList, "clinical".toList, "evidence".toList, "mechanism".toList]
  | .busyProfessional =>
    ["busy".toList, "quick".toList, "travel".toList, "schedule".toList, "minutes".toList]
  | .mensBeginner =>
    ["man".toList, "men".toList, "shave".toList, "razor".toList, "beginner".toList]
  | .postAcneHealer =>
    ["scar".toList, "hyperpigmentation".toList, "barrier".toList, "marks".toList, "recovery".toList]

/-- Modelled from the spec: the keyword set of each intent category. -/
def intentKeywords : IntentCategory → List (List Char)
  | .functional => ["effective".toList, "works".toList, "results".toList]
  | .emotional => ["gentle".toList, "safe".toList, "worried".toList]
  | .social => ["recommend".toList, "dermatologist".toList, "reviews".toList]
  | .situational => ["urgent".toList, "tonight".toList, "convenient".toList]
  | .riskMitigation => ["side".toList, "irritation".toList, "patch".toList]
  | .cognitive => ["research".toList, "data".toList, "evidence".toList]

/-- Modelled from the spec: the segment-scoped job-to-be-done vocabulary. -/
def segmentJobs : Segment → List (List Char × List (List Char))
  | .acneProneConsumer =>
    [("clear_breakouts".toList, ["clear".toList, "treatment".toList]),
     ("prevent_scarring".toList, ["prevent".toList, "scarring".toList])]
  | .scienceFirst =>
    [("learn_effective_ingredients".toList, ["ingredients".toList, "concentration".toList]),
     ("compare_studies".toList, ["compare".toList, "studies".toList])]
  | .busyProfessional =>
    [("save_time".toList, ["time".toList, "fast".toList]),
     ("travel_routine".toList, ["travel".toList, "portable".toList])]
  | .mensBeginner =>
    [("quick_identification".toList, ["simple".toList, "basic".toList]),
     ("shave_care".toList, ["shaving".toList, "burn".toList])]
  | .postAcneHealer =>
    [("repair_barrier".toList, ["repair".toList, "heal".toList]),
     ("fade_marks".toList, ["fade".toList, "dark".toList])]

/-- Query words, lower-cased for case-insensitive matching. -/
def lowerWords (t : List Char) : List (List Char) :=
  (splitWords t).map (List.map Char.toLower)

/-- Counted keyword matches of a query against a keyword set. -/
def keywordScore (keywords : List (List Char)) (q : List Char) : Nat :=
  ((lowerWords q).filter (fun w => keywords.contains w)).length

def segmentScore (q : List Char) (s : Segment) : Nat := keywordScore (segmentKeywords s) q

def intentScore (q : List Char) (i : IntentCategory) : Nat := keywordScore (intentKeywords i) q

/-- Highest-scoring candidate; the fallback (score zero) wins all ties at
zero because only strictly greater scores replace it. -/
def pickBest {α : Type} (fallback : α) (scored : List (α × Nat)) : α × Nat :=
  scored.foldl (fun acc p => if acc.2 < p.2 then p else acc) (fallback, 0)

def classifySegment (q : List Char) : Segment × Nat :=
  pickBest fallbackSegment (allSegments.map (fun s => (s, segmentScore q s)))

def classifyIntent (q : List Char) : IntentCategory :=
  (pickBest fallbackIntent (allIntents.map (fun i => (i, intentScore q i)))).1

def classifyJob (q : List Char) (s : Segment) : List Char :=
  (pickBest (((segmentJobs s).headD ("general".toList, [])).1)
    ((segmentJobs s).map (fun j => (j.1, keywordScore j.2 q)))).1

/-- Classifier output record (spec §4.2). -/
structure Classification where
  segment : Segment
  job : List Char
  intent_category : IntentCategory
  confidence : Nat
deriving DecidableEq, Repr

/-- Modelled from the spec: `classify(query_text)`, a pure rule-based
scorer over the keyword tables. -/
def classify (q : List Char) : Classification :=
  let best := classifySegment q
  ⟨best.1, classifyJob q best.1, classifyIntent q, best.2⟩

/-- Claim C7: `classify` is a pure deterministic function of the query
text — equal queries yield identical classifications — and when all
segment scores are zero the designated fallback segment is returned. -/
theorem classify_deterministic_fallback (q₁ q₂ : List Char) (heq : q₁ = q₂) :
    classify q₁ = classify q₂ ∧
    ((∀ s ∈ allSegments, segmentScore q₁ s = 0) →
      (classify q₁).segment = fallbackSegment) := by
  subst heq
  refine ⟨rfl, ?_⟩
  intro h
  have h₁ := h .acneProneConsumer (by simp [allSegments])
  have h₂ := h .scienceFirst (by simp [allSegments])
  have h₃ := h .busyProfessional (by simp [allSegments])
  have h₄ := h .mensBeginner (by simp [allSegments])
  have h₅ := h .postAcneHealer (by simp [allSegments])
  simp [classify, classifySegment, pickBest, allSegments, h₁, h₂, h₃, h₄, h₅, fallbackSegment]

/-- Concrete instantiation of `classify_deterministic_fallback`: a query
matching no keyword table classifies to the fallback segment, and
classification is reproducible. -/
theorem classify_deterministic_fallback_witness :
    (∀ s ∈ allSegments, segmentScore "hello there friend".toList s = 0) ∧
    classify "hello there friend".toList = classify "hello there friend".toList ∧
    (classify "hello there friend".toList).segment = fallbackSegment :=
  ⟨by decide,
   (classify_deterministic_fallback "hello there friend".toList "hello there friend".toList rfl).1,
   (classify_deterministic_fallback "hello there friend".toList "hello there friend".toList rfl).2
     (by decide)⟩

/-! ## Session Memory Store and Query Orchestrator

Modelled from the spec: the orchestrator (`backend/main.py`) is not in the
checked-in tree.  Per spec §4.4/§4.5: resolve or lazily create the session,
decide reuse-vs-retrieve with a follow-up heuristic, call the external
embedding / vector-search / generation services, extract citations, update
the cached context, and append a user and an assistant message (retaining
the last ten).  External services are supplied as pure fallible oracles;
the outcome records how many embedding and search calls were issued. -/

inductive Role
  | user
  | assistant
deriving DecidableEq, Repr

/-- A session message (spec §3). -/
structure Message where
  role : Role
  content : List Char
  sources : List (List Char)
deriving DecidableEq, Repr

/-- The most recent retrieval result of a session (spec §3). -/
structure CachedContext where
  context_text : List Char
  sources : List (List Char)
  query_that_produced_it : List Char
deriving DecidableEq, Repr

/-- Per-conversation state (spec §3). -/
structure Session where
  messages : List Message
  last_context : Option CachedContext
deriving DecidableEq, Repr

def emptySession : Session := ⟨[], none⟩

/-- The session table: an association list keyed by session id. -/
abbrev SessionStore := List (List Char × Session)

def lookupStore : SessionStore → List Char → Option Session
  | [], _ => none
  | e :: rest, sid => if e.1 = sid then some e.2 else lookupStore rest sid

def setStore : SessionStore → List Char → Session → SessionStore
  | [], sid, s => [(sid, s)]
  | e :: rest, sid, s => if e.1 = sid then (sid, s) :: rest else e :: setStore rest sid s

/-- Message retention limit (spec §3: last 10 messages are kept). -/
def retentionLimit : Nat := 10

/-- Last `n` elements of a list. -/
def takeLast {α : Type} (n : Nat) (l : List α) : List α := l.drop (l.length - n)

/-- Modelled from the spec: the follow-up heuristic of §4.4 step 2 — a
short query, an explicit pronoun reference, or high lexical overlap with
the prior query. -/
def followUpPronouns : List (List Char) :=
  ["it".toList, "that".toList, "this".toList, "they".toList, "them".toList, "its".toList]

def isFollowUp (query prior : List Char) : Bool :=
  let qw := lowerWords query
  let pw := lowerWords prior
  decide (qw.length ≤ 5) || qw.any (fun w => followUpPronouns.contains w) ||
    decide (qw.length ≤ 2 * (qw.filter (fun w => pw.contains w)).length)

/-- The reuse decision of spec §4.4 step 2: reuse the cached context iff
the session holds one and the query is judged a follow-up. -/
def reuseDecision (sess : Session) (q : List Char) : Option CachedContext :=
  match sess.last_context with
  | some cc => if isFollowUp q cc.query_that_produced_it then some cc else none
  | none => none

/-- Typed failures surfaced by `answer` (spec §7 taxonomy). -/
inductive AnswerError
  | embeddingService (msg : List Char)
  | generationService (msg : List Char)
deriving DecidableEq, Repr

/-- The three external services of spec §6, as pure fallible oracles;
an embedding vector is abstracted to a `Nat`. -/
structure Services where
  embed : List Char → Except (List Char) Nat
  search : Nat → Except (List Char) (List (String × List Char))
  generate : List Char → Except (List Char) (List Char)

/-- The `answer` result record (spec §4.4 contract, plus the observable
degraded-mode flag required by its error conditions). -/
structure AnswerResult where
  answer_text : List Char
  sources : List (List Char)
  session_id : List Char
  used_chat_context : Bool
  degraded : Bool
deriving DecidableEq, Repr

deriving instance DecidableEq for Except

/-- Everything one `answer` call produces: its result, the session table
afterwards, and the number of external embedding and search calls issued. -/
structure AnswerOutcome where
  result : Except AnswerError AnswerResult
  store : SessionStore
  embed_calls : Nat
  search_calls : Nat
deriving DecidableEq

/-- Session resolution (spec §4.4 step 1): an existing id resolves the
stored session; no id mints `freshId` with a new empty session. -/
def resolveSession (store : SessionStore) (sid? : Option (List Char)) (freshId : List Char) :
    List Char × Session :=
  match sid? with
  | some sid => (sid, (lookupStore store sid).getD emptySession)
  | none => (freshId, emptySession)

def segmentTag : Segment → List Char
  | .acneProneConsumer => "acne-prone-consumer".toList
  | .scienceFirst => "science-first".toList
  | .busyProfessional => "busy-professional".toList
  | .mensBeginner => "mens-beginner".toList
  | .postAcneHealer => "post-acne-healer".toList

/-- Modelled from the spec: the generation request of §4.4 step 5 — an
instruction template parameterized by the classification, plus the
assembled context, plus the query. -/
def buildPrompt (c : Classification) (ctx q : List Char) : List Char :=
  segmentTag c.segment ++ ' ' :: c.job ++ ' ' :: ctx ++ ' ' :: q

/-- Common tail of `answer` (spec §4.4 steps 4–7): classify, invoke the
generation service, and on success append the user and assistant messages
atomically and persist the session. -/
def finishAnswer (svc : Services) (store : SessionStore) (sid : List Char) (sess : Session)
    (query ctx : List Char) (srcs : List (List Char)) (usedCtx degraded : Bool)
    (newCache : Option CachedContext) (embedCalls searchCalls : Nat) : AnswerOutcome :=
  match svc.generate (buildPrompt (classify query) ctx query) with
  | .error m => ⟨.error (.generationService m), store, embedCalls, searchCalls⟩
  | .ok ans =>
    let sess' : Session :=
      ⟨takeLast retentionLimit
        (sess.messages ++ [⟨.user, query, []⟩, ⟨.assistant, ans, srcs⟩]), newCache⟩
    ⟨.ok ⟨ans, srcs, sid, usedCtx, degraded⟩, setStore store sid sess', embedCalls, searchCalls⟩

/-- Modelled from the spec: `answer(query_text, session_id?)` of §4.4.
Reuse path: zero service calls before generation.  Retrieval path: one
embedding call (typed failure aborts), one search call (failure degrades
to an empty context, flagged), citation extraction, cache update. -/
def answer (svc : Services) (freshId : List Char) (store : SessionStore)
    (query : List Char) (sid? : Option (List Char)) : AnswerOutcome :=
  let rs := resolveSession store sid? freshId
  match reuseDecision rs.2 query with
  | some cc =>
    finishAnswer svc store rs.1 rs.2 query cc.context_text cc.sources true false (some cc) 0 0
  | none =>
    match svc.embed query with
    | .error m => ⟨.error (.embeddingService m), store, 1, 0⟩
    | .ok v =>
      match svc.search v with
      | .error _ =>
        finishAnswer svc store rs.1 rs.2 query [] [] false true rs.2.last_context 1 1
      | .ok chunks =>
        let ctx := joinWords (chunks.map Prod.snd)
        let srcs := (extract maxCitations (chunks.map Prod.snd)).map Citation.identifier
        finishAnswer svc store rs.1 rs.2 query ctx srcs false false (some ⟨ctx, srcs, query⟩) 1 1

theorem lookupStore_setStore_self (store : SessionStore) (sid : List Char) (s : Session) :
    lookupStore (setStore store sid s) sid = some s := by
  induction store with
  | nil => simp [setStore, lookupStore]
  | cons e rest ih =>
    by_cases he : e.1 = sid
    · simp [setStore, lookupStore, he]
    · simp [setStore, lookupStore, he, ih]

/-- Witness fixture: services whose calls always succeed. -/
def svcTotal : Services :=
  ⟨fun _ => .ok 7,
   fun _ => .ok [("doc.txt", "see https://pubmed.gov/11 for evidence".toList)],
   fun p => .ok ('A' :: p)⟩

/-- Witness fixture: vector search always fails, the rest succeeds. -/
def svcNoSearch : Services :=
  ⟨fun _ => .ok 7, fun _ => .error "qdrant down".toList, fun p => .ok ('A' :: p)⟩

/-- Witness fixture: embedding service always fails. -/
def svcNoEmbed : Services :=
  ⟨fun _ => .error "embed down".toList, fun _ => .ok [], fun p => .ok ('A' :: p)⟩

/-- Witness fixture: a cached retrieval result for a prior query. -/
def ccW : CachedContext :=
  ⟨"niacinamide is a form of vitamin b3".toList,
   ["https://pubmed.gov/11".toList],
   "what is niacinamide".toList⟩

/-- Witness fixture: a store holding one session with a cached context. -/
def storeW : SessionStore := [("sess-1".toList, ⟨[], some ccW⟩)]

/-- Claim C1: for a session holding a cached context, a query judged a
follow-up makes `answer` skip retrieval entirely — zero vector-store
search calls (and zero embedding calls) — and on success the result is
flagged `used_chat_context = true` and reuses the cached sources (the
cached `context_text` being what is handed to generation). -/
theorem followup_skips_retrieval (svc : Services) (freshId : List Char) (store : SessionStore)
    (q sid : List Char) (sess : Session) (cc : CachedContext)
    (hs : lookupStore store sid = some sess)
    (hc : sess.last_context = some cc)
    (hf : isFollowUp q cc.query_that_produced_it = true) :
    (answer svc freshId store q (some sid)).search_calls = 0 ∧
    (answer svc freshId store q (some sid)).embed_calls = 0 ∧
    ∀ r, (answer svc freshId store q (some sid)).result = .ok r →
      r.used_chat_context = true ∧ r.sources = cc.sources := by
  have hrs : resolveSession store (some sid) freshId = (sid, sess) := by
    simp [resolveSession, hs]
  have hrd : reuseDecision sess q = some cc := by
    simp [reuseDecision, hc, hf]
  simp only [answer, hrs, hrd]
  cases hg : svc.generate (buildPrompt (classify q) cc.context_text q) with
  | error m => simp [finishAnswer, hg]
  | ok ans =>
    simp only [finishAnswer, hg]
    refine ⟨trivial, trivial, ?_⟩
    intro r hr
    cases hr
    exact ⟨rfl, rfl⟩

/-- Concrete instantiation of `followup_skips_retrieval`: the two-query
scenario of the spec, with second query "What about its safety?" on a
session caching the retrieval for "what is niacinamide". -/
theorem followup_skips_retrieval_witness :
    lookupStore storeW "sess-1".toList = some ⟨[], some ccW⟩ ∧
    (⟨[], some ccW⟩ : Session).last_context = some ccW ∧
    isFollowUp "What about its safety?".toList ccW.query_that_produced_it = true ∧
    ((answer svcTotal "fresh-1".toList storeW "What about its safety?".toList
        (some "sess-1".toList)).search_calls = 0 ∧
     (answer svcTotal "fresh-1".toList storeW "What about its safety?".toList
        (some "sess-1".toList)).embed_calls = 0 ∧
     ∀ r, (answer svcTotal "fresh-1".toList storeW "What about its safety?".toList
        (some "sess-1".toList)).result = .ok r →
       r.used_chat_context = true ∧ r.sources = ccW.sources) :=
  ⟨by decide, rfl, by decide,
   followup_skips_retrieval svcTotal "fresh-1".toList storeW
     "What about its safety?".toList "sess-1".toList ⟨[], some ccW⟩ ccW
     (by decide) rfl (by decide)⟩

/-- Claim C4: if the vector-store similarity search fails, `answer` does
not fail the request: with generation available it returns a response
built from an empty context, with empty sources, and the degraded mode is
observably flagged in the result. -/
theorem search_failure_degrades (svc : Services) (freshId : List Char) (store : SessionStore)
    (q : List Char) (sid? : Option (List Char)) (v : Nat) (em : List Char)
    (g : List Char → List Char)
    (hrd : reuseDecision (resolveSession store sid? freshId).2 q = none)
    (hemb : svc.embed q = .ok v)
    (hsearch : svc.search v = .error em)
    (hgen : ∀ p, svc.generate p = .ok (g p)) :
    ∃ r, (answer svc freshId store q sid?).result = .ok r ∧
      r.sources = [] ∧ r.degraded = true ∧ r.used_chat_context = false := by
  simp only [answer, hrd, hemb, hsearch, finishAnswer, hgen]
  exact ⟨_, rfl, rfl, rfl, rfl⟩

/-- Concrete instantiation of `search_failure_degrades`: the spec scenario
"vector-store search raises an error → `answer()` still returns a
response (degraded, empty sources) rather than raising". -/
theorem search_failure_degrades_witness :
    reuseDecision (resolveSession [] none "fresh-1".toList).2 "what is acne treatment".toList
      = none ∧
    svcNoSearch.embed "what is acne treatment".toList = .ok 7 ∧
    svcNoSearch.search 7 = .error "qdrant down".toList ∧
    ∃ r, (answer svcNoSearch "fresh-1".toList [] "what is acne treatment".toList none).result
        = .ok r ∧
      r.sources = [] ∧ r.degraded = true ∧ r.used_chat_context = false :=
  ⟨rfl, rfl, rfl,
   search_failure_degrades svcNoSearch "fresh-1".toList [] "what is acne treatment".toList
     none 7 "qdrant down".toList (fun p => 'A' :: p) rfl rfl rfl (fun _ => rfl)⟩

theorem finishAnswer_gen_error (svc : Services) (store : SessionStore) (sid : List Char)
    (sess : Session) (query ctx : List Char) (srcs : List (List Char)) (u d : Bool)
    (nc : Option CachedContext) (ec sc : Nat) (m : List Char)
    (hg : svc.generate (buildPrompt (classify query) ctx query) = .error m) :
    finishAnswer svc store sid sess query ctx srcs u d nc ec sc =
      ⟨.error (.generationService m), store, ec, sc⟩ := by
  simp only [finishAnswer, hg]

theorem finishAnswer_gen_ok (svc : Services) (store : SessionStore) (sid : List Char)
    (sess : Session) (query ctx : List Char) (srcs : List (List Char)) (u d : Bool)
    (nc : Option CachedContext) (ec sc : Nat) (ans : List Char)
    (hg : svc.generate (buildPrompt (classify query) ctx query) = .ok ans) :
    finishAnswer svc store sid sess query ctx srcs u d nc ec sc =
      ⟨.ok ⟨ans, srcs, sid, u, d⟩,
       setStore store sid
         ⟨takeLast retentionLimit
           (sess.messages ++ [⟨.user, query, []⟩, ⟨.assistant, ans, srcs⟩]), nc⟩,
       ec, sc⟩ := by
  simp only [finishAnswer, hg]

theorem answer_reuse_eq (svc : Services) (freshId : List Char) (store : SessionStore)
    (q : List Char) (sid? : Option (List Char)) (cc : CachedContext)
    (hrd : reuseDecision (resolveSession store sid? freshId).2 q = some cc) :
    answer svc freshId store q sid? =
      finishAnswer svc store (resolveSession store sid? freshId).1
        (resolveSession store sid? freshId).2 q cc.context_text cc.sources
        true false (some cc) 0 0 := by
  simp only [answer, hrd]

theorem answer_embed_error_eq (svc : Services) (freshId : List Char) (store : SessionStore)
    (q : List Char) (sid? : Option (List Char)) (m : List Char)
    (hrd : reuseDecision (resolveSession store sid? freshId).2 q = none)
    (hemb : svc.embed q = .error m) :
    answer svc freshId store q sid? = ⟨.error (.embeddingService m), store, 1, 0⟩ := by
  simp only [answer, hrd, hemb]

theorem answer_search_error_eq (svc : Services) (freshId : List Char) (store : SessionStore)
    (q : List Char) (sid? : Option (List Char)) (v : Nat) (em : List Char)
    (hrd : reuseDecision (resolveSession store sid? freshId).2 q = none)
    (hemb : svc.embed q = .ok v)
    (hsearch : svc.search v = .error em) :
    answer svc freshId store q sid? =
      finishAnswer svc store (resolveSession store sid? freshId).1
        (resolveSession store sid? freshId).2 q [] [] false true
        (resolveSession store sid? freshId).2.last_context 1 1 := by
  simp only [answer, hrd, hemb, hsearch]

theorem answer_search_ok_eq (svc : Services) (freshId : List Char) (store : SessionStore)
    (q : List Char) (sid? : Option (List Char)) (v : Nat)
    (chunks : List (String × List Char))
    (hrd : reuseDecision (resolveSession store sid? freshId).2 q = none)
    (hemb : svc.embed q = .ok v)
    (hsearch : svc.search v = .ok chunks) :
    answer svc freshId store q sid? =
      finishAnswer svc store (resolveSession store sid? freshId).1
        (resolveSession store sid? freshId).2 q (joinWords (chunks.map Prod.snd))
        ((extract maxCitations (chunks.map Prod.snd)).map Citation.identifier) false false
        (some ⟨joinWords (chunks.map Prod.snd),
          (extract maxCitations (chunks.map Prod.snd)).map Citation.identifier, q⟩) 1 1 := by
  simp only [answer, hrd, hemb, hsearch]

/-- Claim C5: an embedding-service or generation-service failure during
`answer` surfaces as a typed error and leaves the session state untouched:
on any error the store is unchanged (so neither message is appended), on
success the session holds both the user and the assistant message — never
a partial append. -/
theorem service_failure_typed_atomic (svc : Services) (freshId : List Char)
    (store : SessionStore) (q : List Char) (sid? : Option (List Char)) :
    (∀ e, (answer svc freshId store q sid?).result = .error e →
      (answer svc freshId store q sid?).store = store) ∧
    (∀ m, reuseDecision (resolveSession store sid? freshId).2 q = none →
      svc.embed q = .error m →
      (answer svc freshId store q sid?).result = .error (.embeddingService m)) ∧
    (∀ m, (∀ p, svc.generate p = .error m) →
      (reuseDecision (resolveSession store sid? freshId).2 q ≠ none ∨ (svc.embed q).isOk) →
      (answer svc freshId store q sid?).result = .error (.generationService m)) ∧
    (∀ r, (answer svc freshId store q sid?).result = .ok r →
      ∃ s', lookupStore (answer svc freshId store q sid?).store r.session_id = some s' ∧
        s'.messages = takeLast retentionLimit
          ((resolveSession store sid? freshId).2.messages ++
            [⟨.user, q, []⟩, ⟨.assistant, r.answer_text, r.sources⟩])) := by
  refine ⟨?_, ?_, ?_, ?_⟩
  · intro e he
    cases hrd : reuseDecision (resolveSession store sid? freshId).2 q with
    | some cc =>
      cases hg : svc.generate (buildPrompt (classify q) cc.context_text q) with
      | error m => rw [answer_reuse_eq svc freshId store q sid? cc hrd,
          finishAnswer_gen_error _ _ _ _ _ _ _ _ _ _ _ _ m hg]
      | ok ans =>
        rw [answer_reuse_eq svc freshId store q sid? cc hrd,
          finishAnswer_gen_ok _ _ _ _ _ _ _ _ _ _ _ _ ans hg] at he
        exact absurd he (by simp)
    | none =>
      cases hemb : svc.embed q with
      | error m => rw [answer_embed_error_eq svc freshId store q sid? m hrd hemb]
      | ok v =>
        cases hsearch : svc.search v with
        | error em =>
          cases hg : svc.generate (buildPrompt (classify q) [] q) with
          | error m => rw [answer_search_error_eq svc freshId store q sid? v em hrd hemb hsearch,
              finishAnswer_gen_error _ _ _ _ _ _ _ _ _ _ _ _ m hg]
          | ok ans =>
            rw [answer_search_error_eq svc freshId store q sid? v em hrd hemb hsearch,
              finishAnswer_gen_ok _ _ _ _ _ _ _ _ _ _ _ _ ans hg] at he
            exact absurd he (by simp)
        | ok chunks =>
          cases hg : svc.generate
              (buildPrompt (classify q) (joinWords (chunks.map Prod.snd)) q) with
          | error m =>
            rw [answer_search_ok_eq svc freshId store q sid? v chunks hrd hemb hsearch,
              finishAnswer_gen_error _ _ _ _ _ _ _ _ _ _ _ _ m hg]
          | ok ans =>
            rw [answer_search_ok_eq svc freshId store q sid? v chunks hrd hemb hsearch,
              finishAnswer_gen_ok _ _ _ _ _ _ _ _ _ _ _ _ ans hg] at he
            exact absurd he (by simp)
  · intro m hrd hemb
    rw [answer_embed_error_eq svc freshId store q sid? m hrd hemb]
  · intro m hgen hpath
    cases hrd : reuseDecision (resolveSession store sid? freshId).2 q with
    | some cc =>
      rw [answer_reuse_eq svc freshId store q sid? cc hrd,
        finishAnswer_gen_error _ _ _ _ _ _ _ _ _ _ _ _ m (hgen _)]
    | none =>
      cases hemb : svc.embed q with
      | error m' =>
        exfalso
        rcases hpath with h | h
        · exact h hrd
        · rw [hemb] at h
          simp [Except.isOk, Except.toBool] at h
      | ok v =>
        cases hsearch : svc.search v with
        | error em =>
          rw [answer_search_error_eq svc freshId store q sid? v em hrd hemb hsearch,
            finishAnswer_gen_error _ _ _ _ _ _ _ _ _ _ _ _ m (hgen _)]
        | ok chunks =>
          rw [answer_search_ok_eq svc freshId store q sid? v chunks hrd hemb hsearch,
            finishAnswer_gen_error _ _ _ _ _ _ _ _ _ _ _ _ m (hgen _)]
  · intro r hr
    cases hrd : reuseDecision (resolveSession store sid? freshId).2 q with
    | some cc =>
      cases hg : svc.generate (buildPrompt (classify q) cc.context_text q) with
      | error m =>
        rw [answer_reuse_eq svc freshId store q sid? cc hrd,
          finishAnswer_gen_error _ _ _ _ _ _ _ _ _ _ _ _ m hg] at hr
        exact absurd hr (by simp)
      | ok ans =>
        rw [answer_reuse_eq svc freshId store q sid? cc hrd,
          finishAnswer_gen_ok _ _ _ _ _ _ _ _ _ _ _ _ ans hg] at hr ⊢
        cases hr
        exact ⟨_, lookupStore_setStore_self store _ _, rfl⟩
    | none =>
      cases hemb : svc.embed q with
      | error m =>
        rw [answer_embed_error_eq svc freshId store q sid? m hrd hemb] at hr
        exact absurd hr (by simp)
      | ok v =>
        cases hsearch : svc.search v with
        | error em =>
          cases hg : svc.generate (buildPrompt (classify q) [] q) with
          | error m =>
            rw [answer_search_error_eq svc freshId store q sid? v em hrd hemb hsearch,
              finishAnswer_gen_error _ _ _ _ _ _ _ _ _ _ _ _ m hg] at hr
            exact absurd hr (by simp)
          | ok ans =>
            rw [answer_search_error_eq svc freshId store q sid? v em hrd hemb hsearch,
              finishAnswer_gen_ok _ _ _ _ _ _ _ _ _ _ _ _ ans hg] at hr ⊢
            cases hr
            exact ⟨_, lookupStore_setStore_self store _ _, rfl⟩
        | ok chunks =>
          cases hg : svc.generate
              (buildPrompt (classify q) (joinWords (chunks.map Prod.snd)) q) with
          | error m =>
            rw [answer_search_ok_eq svc freshId store q sid? v chunks hrd hemb hsearch,
              finishAnswer_gen_error _ _ _ _ _ _ _ _ _ _ _ _ m hg] at hr
            exact absurd hr (by simp)
          | ok ans =>
            rw [answer_search_ok_eq svc freshId store q sid? v chunks hrd hemb hsearch,
              finishAnswer_gen_ok _ _ _ _ _ _ _ _ _ _ _ _ ans hg] at hr ⊢
            cases hr
            exact ⟨_, lookupStore_setStore_self store _ _, rfl⟩

/-- Concrete instantiation of `service_failure_typed_atomic`: with a
failing embedding service the call surfaces the typed embedding error and
the session table is left exactly as it was. -/
theorem service_failure_typed_atomic_witness :
    (answer svcNoEmbed "fresh-1".toList storeW "tell me about retinol research".toList
        none).result = .error (.embeddingService "embed down".toList) ∧
    (answer svcNoEmbed "fresh-1".toList storeW "tell me about retinol research".toList
        none).store = storeW :=
  ⟨(service_failure_typed_atomic svcNoEmbed "fresh-1".toList storeW
      "tell me about retinol research".toList none).2.1 "embed down".toList rfl rfl,
   (service_failure_typed_atomic svcNoEmbed "fresh-1".toList storeW
      "tell me about retinol research".toList none).1
     (.embeddingService "embed down".toList)
     ((service_failure_typed_atomic svcNoEmbed "fresh-1".toList storeW
        "tell me about retinol research".toList none).2.1 "embed down".toList rfl rfl)⟩

/-- Claim C8: a call to `answer` without a session id lazily creates a new
session under the freshly minted id, returns that id in the result, and a
subsequent call with the returned id resolves the very same session. -/
theorem lazy_session_creation (svc : Services) (freshId : List Char) (store : SessionStore)
    (q : List Char) (v : Nat) (g : List Char → List Char)
    (hfresh : lookupStore store freshId = none)
    (hemb : svc.embed q = .ok v)
    (hgen : ∀ p, svc.generate p = .ok (g p)) :
    ∃ r s', (answer svc freshId store q none).result = .ok r ∧
      r.session_id = freshId ∧
      s'.messages = [⟨.user, q, []⟩, ⟨.assistant, r.answer_text, r.sources⟩] ∧
      lookupStore (answer svc freshId store q none).store freshId = some s' ∧
      ∀ freshId₂, resolveSession (answer svc freshId store q none).store
        (some freshId) freshId₂ = (freshId, s') := by
  have hrd : reuseDecision (resolveSession store none freshId).2 q = none := rfl
  have hrs1 : (resolveSession store none freshId).1 = freshId := rfl
  have hrs2 : (resolveSession store none freshId).2 = emptySession := rfl
  cases hsearch : svc.search v with
  | error em =>
    rw [answer_search_error_eq svc freshId store q none v em hrd hemb hsearch,
      finishAnswer_gen_ok _ _ _ _ _ _ _ _ _ _ _ _ _ (hgen _), hrs1, hrs2]
    refine ⟨_, _, rfl, rfl, ?_, lookupStore_setStore_self store _ _, ?_⟩
    · simp [emptySession, takeLast, retentionLimit]
    · intro freshId₂
      simp [resolveSession, lookupStore_setStore_self store _ _]
  | ok chunks =>
    rw [answer_search_ok_eq svc freshId store q none v chunks hrd hemb hsearch,
      finishAnswer_gen_ok _ _ _ _ _ _ _ _ _ _ _ _ _ (hgen _), hrs1, hrs2]
    refine ⟨_, _, rfl, rfl, ?_, lookupStore_setStore_self store _ _, ?_⟩
    · simp [emptySession, takeLast, retentionLimit]
    · intro freshId₂
      simp [resolveSession, lookupStore_setStore_self store _ _]

/-- Concrete instantiation of `lazy_session_creation`: a first query with
no session id against an empty store mints the fresh id, stores the new
two-message session under it, and the id then resolves that session. -/
theorem lazy_session_creation_witness :
    lookupStore ([] : SessionStore) "fresh-1".toList = none ∧
    svcTotal.embed "what is acne treatment".toList = .ok 7 ∧
    (∃ r s', (answer svcTotal "fresh-1".toList [] "what is acne treatment".toList none).result
        = .ok r ∧
      r.session_id = "fresh-1".toList ∧
      s'.messages = [⟨.user, "what is acne treatment".toList, []⟩,
        ⟨.assistant, r.answer_text, r.sources⟩] ∧
      lookupStore (answer svcTotal "fresh-1".toList [] "what is acne treatment".toList
        none).store "fresh-1".toList = some s' ∧
      ∀ freshId₂, resolveSession (answer svcTotal "fresh-1".toList []
        "what is acne treatment".toList none).store (some "fresh-1".toList) freshId₂
        = ("fresh-1".toList, s')) :=
  ⟨rfl, rfl,
   lazy_session_creation svcTotal "fresh-1".toList [] "what is acne treatment".toList 7
     (fun p => 'A' :: p) rfl rfl (fun _ => rfl)⟩

/-! ## Ingestion Pipeline

Modelled from the spec: the indexer code (`backend/indexer.py` /
`document_processor.py`) is not in the checked-in tree.  Per spec §4.1: for
every discovered file compute `(content_hash, mtime)`; a file absent from
the Index State or with a differing hash is dirty, gets chunked, embedded
and upserted (stale chunk ids beyond the new count deleted); unchanged
files are skipped entirely; index entries whose file disappeared are
dropped together with their vectors. -/

/-- A file discovered on disk. -/
structure FileRec where
  path : String
  content : List Char
  mtime : Nat
deriving DecidableEq, Repr

/-- One Index State entry (spec §3): `path -> {content_hash, mtime, chunk_count}`. -/
structure IndexEntry where
  content_hash : Nat
  mtime : Nat
  chunk_count : Nat
deriving DecidableEq, Repr

/-- Deterministic content fingerprint (a simple polynomial hash). -/
def contentHash (content : List Char) : Nat :=
  content.foldl (fun h c => (h * 31 + c.toNat) % 1000000007) 7

/-- The persisted Index State table. -/
abbrev IndexState := List (String × IndexEntry)

/-- The vector store: chunk id `(document_path, sequence_index)` to vector
(a vector abstracted to a `Nat`). -/
abbrev VectorStore := List ((String × Nat) × Nat)

/-- Joint durable state of ingestion. -/
structure IngestState where
  index : IndexState
  vectors : VectorStore
deriving DecidableEq, Repr

def lookupIdx : IndexState → String → Option IndexEntry
  | [], _ => none
  | e :: rest, p => if e.1 = p then some e.2 else lookupIdx rest p

def setIdx : IndexState → String → IndexEntry → IndexState
  | [], p, e => [(p, e)]
  | q :: rest, p, e => if q.1 = p then (p, e) :: rest else q :: setIdx rest p e

/-- Vector-store upsert keyed by chunk id: replaces an existing vector or
appends a new one (spec §6). -/
def upsertVec : VectorStore → (String × Nat) → Nat → VectorStore
  | [], k, v => [(k, v)]
  | e :: rest, k, v => if e.1 = k then (k, v) :: rest else e :: upsertVec rest k v

/-- File change detection (spec §4.1): dirty iff absent from the Index
State or with a differing content hash. -/
def isDirty (idx : IndexState) (f : FileRec) : Bool :=
  match lookupIdx idx f.path with
  | none => true
  | some e => decide (e.content_hash ≠ contentHash f.content)

/-- Re-ingests one dirty document: chunk, embed every chunk (counted as
embedding-service calls), upsert by deterministic chunk id, delete stale
chunk ids beyond the new chunk count, record the new index entry.
Returns the new state and the number of embedding calls made. -/
def ingestDoc (embedFn : List Char → Nat) (st : IngestState) (f : FileRec) :
    IngestState × Nat :=
  let chunks := chunkDocument maxChunkTokens f.path f.content
  let n := chunks.length
  let vecs1 := chunks.foldl
    (fun vs c => upsertVec vs (f.path, c.sequence_index) (embedFn c.text)) st.vectors
  let vecs2 := vecs1.filter (fun e => !(decide (e.1.1 = f.path) && decide (n ≤ e.1.2)))
  (⟨setIdx st.index f.path ⟨contentHash f.content, f.mtime, n⟩, vecs2⟩, n)

/-- One reconciliation step: dirty documents are re-ingested, clean ones
are skipped entirely.  The accumulator carries the running state and the
number of embedding-service calls. -/
def reconcileStep (embedFn : List Char → Nat) (acc : IngestState × Nat) (f : FileRec) :
    IngestState × Nat :=
  if isDirty acc.1.index f then
    let r := ingestDoc embedFn acc.1 f
    (r.1, acc.2 + r.2)
  else acc

/-- Modelled from the spec: `reconcile(document_set)` of §4.1.  First drops
index entries and vectors of documents no longer on disk, then processes
every discovered file with `reconcileStep`.  Returns the new state and the
total number of embedding-service calls issued. -/
def reconcile (embedFn : List Char → Nat) (files : List FileRec) (st : IngestState) :
    IngestState × Nat :=
  let diskPaths := files.map FileRec.path
  let st0 : IngestState :=
    ⟨st.index.filter (fun e => decide (e.1 ∈ diskPaths)),
     st.vectors.filter (fun v => decide (v.1.1 ∈ diskPaths))⟩
  files.foldl (reconcileStep embedFn) (st0, 0)

theorem lookupIdx_setIdx_self (idx : IndexState) (p : String) (e : IndexEntry) :
    lookupIdx (setIdx idx p e) p = some e := by
  induction idx with
  | nil => simp [setIdx, lookupIdx]
  | cons q rest ih =>
    by_cases hq : q.1 = p
    · simp [setIdx, lookupIdx, hq]
    · simp [setIdx, lookupIdx, hq, ih]

theorem lookupIdx_setIdx_ne (idx : IndexState) (p p' : String) (e : IndexEntry)
    (hne : p' ≠ p) :
    lookupIdx (setIdx idx p e) p' = lookupIdx idx p' := by
  induction idx with
  | nil =>
    simp only [setIdx, lookupIdx]
    rw [if_neg (fun h : p = p' => hne h.symm)]
  | cons q rest ih =>
    simp only [setIdx]
    by_cases hq : q.1 = p
    · rw [if_pos hq]
      simp only [lookupIdx]
      rw [if_neg (fun h : p = p' => hne h.symm),
        if_neg (fun h : q.1 = p' => hne (h.symm.trans hq))]
    · rw [if_neg hq]
      simp only [lookupIdx]
      by_cases hq' : q.1 = p'
      · rw [if_pos hq', if_pos hq']
      · rw [if_neg hq', if_neg hq', ih]

theorem setIdx_mem (idx : IndexState) (p : String) (e : IndexEntry) :
    ∀ q ∈ setIdx idx p e, q ∈ idx ∨ q.1 = p := by
  induction idx with
  | nil => intro q hq; simp [setIdx] at hq; subst hq; simp
  | cons r rest ih =>
    intro q hq
    by_cases hr : r.1 = p
    · simp only [setIdx, hr, if_true, List.mem_cons] at hq
      rcases hq with hq | hq
      · subst hq; simp
      · exact Or.inl (List.mem_cons_of_mem r hq)
    · simp only [setIdx, hr, if_false, List.mem_cons] at hq
      rcases hq with hq | hq
      · subst hq; exact Or.inl (List.mem_cons_self q rest)
      · rcases ih q hq with h | h
        · exact Or.inl (List.mem_cons_of_mem r h)
        · exact Or.inr h

theorem upsertVec_mem (vs : VectorStore) (k : String × Nat) (v : Nat) :
    ∀ kv ∈ upsertVec vs k v, kv ∈ vs ∨ kv.1 = k := by
  induction vs with
  | nil => intro kv hkv; simp [upsertVec] at hkv; subst hkv; simp
  | cons e rest ih =>
    intro kv hkv
    by_cases he : e.1 = k
    · simp only [upsertVec, he, if_true, List.mem_cons] at hkv
      rcases hkv with hkv | hkv
      · subst hkv; simp
      · exact Or.inl (List.mem_cons_of_mem e hkv)
    · simp only [upsertVec, he, if_false, List.mem_cons] at hkv
      rcases hkv with hkv | hkv
      · subst hkv; exact Or.inl (List.mem_cons_self kv rest)
      · rcases ih kv hkv with h | h
        · exact Or.inl (List.mem_cons_of_mem e h)
        · exact Or.inr h

theorem foldl_upsert_path_closed (S : List String) (p : String) (hp : p ∈ S)
    (embedFn : List Char → Nat) :
    ∀ (chunks : List Chunk) (vs : VectorStore),
      (∀ kv ∈ vs, kv.1.1 ∈ S) →
      ∀ kv ∈ chunks.foldl
        (fun vs c => upsertVec vs (p, c.sequence_index) (embedFn c.text)) vs,
        kv.1.1 ∈ S := by
  intro chunks
  induction chunks with
  | nil => intro vs hvs kv hkv; exact hvs kv hkv
  | cons c cs ih =>
    intro vs hvs kv hkv
    refine ih (upsertVec vs (p, c.sequence_index) (embedFn c.text)) ?_ kv hkv
    intro kv' hkv'
    rcases upsertVec_mem vs (p, c.sequence_index) (embedFn c.text) kv' hkv' with h | h
    · exact hvs kv' h
    · rw [h]; exact hp

theorem reconcileFold_path_closed (embedFn : List Char → Nat) (S : List String) :
    ∀ (files : List FileRec) (acc : IngestState × Nat),
      (∀ f ∈ files, f.path ∈ S) →
      (∀ e ∈ acc.1.index, e.1 ∈ S) →
      (∀ kv ∈ acc.1.vectors, kv.1.1 ∈ S) →
      (∀ e ∈ ((files.foldl (reconcileStep embedFn) acc).1).index, e.1 ∈ S) ∧
      (∀ kv ∈ ((files.foldl (reconcileStep embedFn) acc).1).vectors, kv.1.1 ∈ S) := by
  intro files
  induction files with
  | nil => intro acc _ hidx hvec; exact ⟨hidx, hvec⟩
  | cons f fs ih =>
    intro acc hfiles hidx hvec
    have hfp : f.path ∈ S := hfiles f (List.mem_cons_self f fs)
    have hfs : ∀ g ∈ fs, g.path ∈ S := fun g hg => hfiles g (List.mem_cons_of_mem f hg)
    simp only [List.foldl_cons]
    by_cases hd : isDirty acc.1.index f = true
    · have hstep : reconcileStep embedFn acc f =
          ((ingestDoc embedFn acc.1 f).1, acc.2 + (ingestDoc embedFn acc.1 f).2) := by
        simp [reconcileStep, hd]
      rw [hstep]
      refine ih _ hfs ?_ ?_
      · intro e he
        simp only [ingestDoc] at he
        rcases setIdx_mem acc.1.index f.path _ e he with h | h
        · exact hidx e h
        · rw [h]; exact hfp
      · intro kv hkv
        simp only [ingestDoc] at hkv
        have hkv' := List.mem_of_mem_filter hkv
        exact foldl_upsert_path_closed S f.path hfp embedFn _ acc.1.vectors hvec kv hkv'
    · have hstep : reconcileStep embedFn acc f = acc := by
        simp [reconcileStep, hd]
      rw [hstep]
      exact ih acc hfs hidx hvec

theorem reconcileFold_lookup_preserved (embedFn : List Char → Nat) :
    ∀ (files : List FileRec) (acc : IngestState × Nat) (p : String),
      (∀ g ∈ files, g.path ≠ p) →
      lookupIdx ((files.foldl (reconcileStep embedFn) acc).1).index p =
        lookupIdx acc.1.index p := by
  intro files
  induction files with
  | nil => intro acc p _; rfl
  | cons f fs ih =>
    intro acc p hp
    have hfp : f.path ≠ p := hp f (List.mem_cons_self f fs)
    have hfs : ∀ g ∈ fs, g.path ≠ p := fun g hg => hp g (List.mem_cons_of_mem f hg)
    simp only [List.foldl_cons]
    rw [ih (reconcileStep embedFn acc f) p hfs]
    by_cases hd : isDirty acc.1.index f = true
    · have hstep : reconcileStep embedFn acc f =
          ((ingestDoc embedFn acc.1 f).1, acc.2 + (ingestDoc embedFn acc.1 f).2) := by
        simp [reconcileStep, hd]
      rw [hstep]
      simp only [ingestDoc]
      exact lookupIdx_setIdx_ne acc.1.index f.path p _ (fun h => hfp h.symm)
    · have hstep : reconcileStep embedFn acc f = acc := by
        simp [reconcileStep, hd]
      rw [hstep]

theorem reconcileFold_hash_correct (embedFn : List Char → Nat) :
    ∀ (files : List FileRec) (acc : IngestState × Nat),
      (files.map FileRec.path).Nodup →
      ∀ f ∈ files, ∃ e,
        lookupIdx ((files.foldl (reconcileStep embedFn) acc).1).index f.path = some e ∧
        e.content_hash = contentHash f.content := by
  intro files
  induction files with
  | nil => intro acc _ f hf; simp at hf
  | cons g gs ih =>
    intro acc hnd f hf
    have hnd' : (gs.map FileRec.path).Nodup := (List.nodup_cons.mp hnd).2
    have hgnotin : g.path ∉ gs.map FileRec.path := (List.nodup_cons.mp hnd).1
    simp only [List.foldl_cons]
    rcases List.mem_cons.mp hf with hf | hf
    · subst hf
      have hpres : ∀ h ∈ gs, h.path ≠ f.path := by
        intro h hh hc
        exact hgnotin (hc ▸ List.mem_map_of_mem FileRec.path hh)
      rw [reconcileFold_lookup_preserved embedFn gs (reconcileStep embedFn acc f) f.path hpres]
      by_cases hd : isDirty acc.1.index f = true
      · have hstep : reconcileStep embedFn acc f =
            ((ingestDoc embedFn acc.1 f).1, acc.2 + (ingestDoc embedFn acc.1 f).2) := by
          simp [reconcileStep, hd]
        rw [hstep]
        simp only [ingestDoc]
        exact ⟨_, lookupIdx_setIdx_self acc.1.index f.path _, rfl⟩
      · have hstep : reconcileStep embedFn acc f = acc := by
          simp [reconcileStep, hd]
        rw [hstep]
        simp only [isDirty] at hd
        cases hlk : lookupIdx acc.1.index f.path with
        | none => rw [hlk] at hd; simp at hd
        | some e =>
          rw [hlk] at hd
          simp only [decide_not, Bool.not_eq_true, Bool.not_eq_false, decide_eq_true_eq] at hd
          exact ⟨e, rfl, by simpa using hd⟩
    · exact ih (reconcileStep embedFn acc g) hnd' f hf

theorem reconcileFold_clean_id (embedFn : List Char → Nat) :
    ∀ (files : List FileRec) (acc : IngestState × Nat),
      (∀ f ∈ files, isDirty acc.1.index f = false) →
      files.foldl (reconcileStep embedFn) acc = acc := by
  intro files
  induction files with
  | nil => intro acc _; rfl
  | cons f fs ih =>
    intro acc hclean
    have hf : isDirty acc.1.index f = false := hclean f (List.mem_cons_self f fs)
    have hstep : reconcileStep embedFn acc f = acc := by
      simp [reconcileStep, hf]
    simp only [List.foldl_cons, hstep]
    exact ih acc (fun g hg => hclean g (List.mem_cons_of_mem f hg))

/-- Claim C2: `reconcile` is idempotent on an unchanged corpus — running
it a second time with no file changes returns the state unchanged, makes
zero embedding-service calls, and leaves the vector count unchanged,
because every document absent from the dirty set is skipped entirely. -/
theorem reconcile_idempotent (embedFn : List Char → Nat) (files : List FileRec)
    (st : IngestState) (hnd : (files.map FileRec.path).Nodup) :
    (reconcile embedFn files ((reconcile embedFn files st).1)).1 =
      (reconcile embedFn files st).1 ∧
    (reconcile embedFn files ((reconcile embedFn files st).1)).2 = 0 ∧
    (reconcile embedFn files ((reconcile embedFn files st).1)).1.vectors.length =
      (reconcile embedFn files st).1.vectors.length := by
  set diskPaths := files.map FileRec.path with hdp
  set st1 := (reconcile embedFn files st).1 with hst1
  have hfilesS : ∀ f ∈ files, f.path ∈ diskPaths :=
    fun f hf => List.mem_map_of_mem FileRec.path hf
  have hclosed : (∀ e ∈ st1.index, e.1 ∈ diskPaths) ∧
      (∀ kv ∈ st1.vectors, kv.1.1 ∈ diskPaths) := by
    rw [hst1]
    simp only [reconcile]
    refine reconcileFold_path_closed embedFn diskPaths files _ hfilesS ?_ ?_
    · intro e he
      have := List.of_mem_filter he
      exact of_decide_eq_true this
    · intro kv hkv
      have := List.of_mem_filter hkv
      exact of_decide_eq_true this
  have hhash : ∀ f ∈ files, ∃ e, lookupIdx st1.index f.path = some e ∧
      e.content_hash = contentHash f.content := by
    rw [hst1]
    simp only [reconcile]
    exact reconcileFold_hash_correct embedFn files _ hnd
  have hfilter_idx : st1.index.filter (fun e => decide (e.1 ∈ diskPaths)) = st1.index :=
    List.filter_eq_self.mpr (fun e he => decide_eq_true (hclosed.1 e he))
  have hfilter_vec : st1.vectors.filter (fun v => decide (v.1.1 ∈ diskPaths)) = st1.vectors :=
    List.filter_eq_self.mpr (fun kv hkv => decide_eq_true (hclosed.2 kv hkv))
  have hclean : ∀ f ∈ files, isDirty st1.index f = false := by
    intro f hf
    obtain ⟨e, hlk, hh⟩ := hhash f hf
    simp [isDirty, hlk, hh]
  have hrun2 : reconcile embedFn files st1 = (st1, 0) := by
    simp only [reconcile, ← hdp, hfilter_idx, hfilter_vec]
    exact reconcileFold_clean_id embedFn files (st1, 0) hclean
  rw [hrun2]
  exact ⟨rfl, rfl, rfl⟩

/-- Witness fixture: a two-file corpus with distinct paths. -/
def filesW : List FileRec :=
  [⟨"a.txt", "acne care basics".toList, 3⟩,
   ⟨"b.txt", "niacinamide research".toList, 4⟩]

/-- Witness fixture: a deterministic stand-in embedding function. -/
def embedW : List Char → Nat := fun t => t.length

/-- Concrete instantiation of `reconcile_idempotent`: re-running ingestion
on the unchanged two-file corpus changes nothing and embeds nothing. -/
theorem reconcile_idempotent_witness :
    (filesW.map FileRec.path).Nodup ∧
    ((reconcile embedW filesW ((reconcile embedW filesW ⟨[], []⟩).1)).1 =
      (reconcile embedW filesW ⟨[], []⟩).1 ∧
     (reconcile embedW filesW ((reconcile embedW filesW ⟨[], []⟩).1)).2 = 0 ∧
     (reconcile embedW filesW ((reconcile embedW filesW ⟨[], []⟩).1)).1.vectors.length =
      (reconcile embedW filesW ⟨[], []⟩).1.vectors.length) :=
  ⟨by decide, reconcile_idempotent embedW filesW ⟨[], []⟩ (by decide)⟩

/-! ## Frontend message list

Embedded from `src/frontend/src/App.js`, `handleSendMessage` (lines 43–117):
the guard returns early when the trimmed input is empty or a request is in
flight; otherwise a user message (id `Date.now()`) and an AI typing
placeholder (id `Date.now() + 1`) are appended, and the placeholder is
later updated in place by matching its id, on success and on error. -/

inductive MsgType
  | user
  | ai
deriving DecidableEq, Repr

/-- A frontend chat message (the fields `handleSendMessage` manipulates). -/
structure FMessage where
  id : Nat
  type : MsgType
  content : List Char
  sources : List (List Char)
  isTyping : Bool
deriving DecidableEq, Repr

/-- The `!inputMessage.trim() || isLoading` guard: sending is allowed iff
the input has a non-whitespace character and no request is in flight. -/
def sendAllowed (input : List Char) (isLoading : Bool) : Bool :=
  input.any (fun c => !(isWS c)) && !isLoading

def userMsgOf (now : Nat) (input : List Char) : FMessage :=
  ⟨now, .user, input, [], false⟩

def aiPlaceholder (aiId : Nat) : FMessage :=
  ⟨aiId, .ai, [], [], true⟩

/-- Phase 1 of `handleSendMessage` (App.js lines 45–69): append the user
message and the AI typing placeholder, or do nothing when the guard fires. -/
def sendPhase1 (now : Nat) (msgs : List FMessage) (input : List Char)
    (isLoading : Bool) : List FMessage :=
  if sendAllowed input isLoading then
    msgs ++ [userMsgOf now input, aiPlaceholder (now + 1)]
  else msgs

/-- Success resolution (App.js lines 89–100): map over the list updating
the message whose id matches the placeholder id, in place. -/
def resolveSuccess (aiId : Nat) (ans : List Char) (srcs : List (List Char))
    (msgs : List FMessage) : List FMessage :=
  msgs.map (fun m =>
    if m.id = aiId then { m with content := ans, sources := srcs, isTyping := false } else m)

/-- Error resolution (App.js lines 102–113): map over the list replacing
the message whose id matches the placeholder id with the error message. -/
def resolveError (aiId : Nat) (err : List Char) (msgs : List FMessage) : List FMessage :=
  msgs.map (fun m => if m.id = aiId then ⟨aiId, .ai, err, [], false⟩ else m)

/-- Claim C9: every submitted non-empty query appends exactly two entries —
the user message then the AI placeholder — and resolution then updates the
placeholder in place by id on both the success and the error path, so each
send grows the list by exactly two entries with none lost or duplicated. -/
theorem send_appends_two_then_updates_in_place (now : Nat) (msgs : List FMessage)
    (input : List Char) (isLoading : Bool) (ans err : List Char)
    (srcs : List (List Char))
    (hallow : sendAllowed input isLoading = true)
    (hfresh : ∀ m ∈ msgs, m.id ≠ now + 1) :
    (sendPhase1 now msgs input isLoading).length = msgs.length + 2 ∧
    resolveSuccess (now + 1) ans srcs (sendPhase1 now msgs input isLoading) =
      msgs ++ [userMsgOf now input, ⟨now + 1, .ai, ans, srcs, false⟩] ∧
    resolveError (now + 1) err (sendPhase1 now msgs input isLoading) =
      msgs ++ [userMsgOf now input, ⟨now + 1, .ai, err, [], false⟩] := by
  have hsend : sendPhase1 now msgs input isLoading =
      msgs ++ [userMsgOf now input, aiPlaceholder (now + 1)] := by
    simp [sendPhase1, hallow]
  have huser : (userMsgOf now input).id ≠ now + 1 := by
    simp [userMsgOf]
  have hunchanged : ∀ (f : FMessage → FMessage),
      msgs.map (fun m => if m.id = now + 1 then f m else m) = msgs := by
    intro f
    have : ∀ m ∈ msgs, (if m.id = now + 1 then f m else m) = id m := by
      intro m hm
      simp [hfresh m hm]
    rw [List.map_congr_left this, List.map_id]
  refine ⟨?_, ?_, ?_⟩
  · rw [hsend]
    simp
  · rw [hsend]
    simp only [resolveSuccess, List.map_append]
    rw [hunchanged]
    simp [userMsgOf, aiPlaceholder, huser]
  · rw [hsend]
    simp only [resolveError, List.map_append]
    rw [hunchanged]
    simp [userMsgOf, aiPlaceholder, huser]

/-- Concrete instantiation of `send_appends_two_then_updates_in_place`:
one send on an empty chat. -/
theorem send_appends_two_witness :
    sendAllowed "what is acne?".toList false = true ∧
    ((sendPhase1 100 [] "what is acne?".toList false).length = 0 + 2 ∧
     resolveSuccess 101 "answer".toList ["https://pubmed.gov/11".toList]
        (sendPhase1 100 [] "what is acne?".toList false) =
       [] ++ [userMsgOf 100 "what is acne?".toList,
         ⟨101, .ai, "answer".toList, ["https://pubmed.gov/11".toList], false⟩] ∧
     resolveError 101 "Error: network".toList
        (sendPhase1 100 [] "what is acne?".toList false) =
       [] ++ [userMsgOf 100 "what is acne?".toList,
         ⟨101, .ai, "Error: network".toList, [], false⟩]) :=
  ⟨by decide,
   send_appends_two_then_updates_in_place 100 [] "what is acne?".toList false
     "answer".toList "Error: network".toList ["https://pubmed.gov/11".toList]
     (by decide) (by intro m hm; simp at hm)⟩

/-! ## Deployment preflight

Embedded from `src/deploy.sh` (lines 8–23): after `mkdir -p data/documents`
the script tests `[ -z "$(ls -A data/documents 2>/dev/null)" ]`; an empty
or unreadable directory produces empty `ls` output, so the script prints a
warning and exits 1 before any docker command; only a non-empty listing
reaches `docker-compose up -d`. -/

/-- Outcome of running `deploy.sh`: final exit status of the preflight and
whether `docker-compose up` was reached. -/
structure DeployResult where
  exit_code : Nat
  docker_compose_up : Bool
deriving DecidableEq, Repr

/-- Output of `ls -A data/documents 2>/dev/null`: an unreadable directory
(`none`) produces no output, otherwise the entry list. -/
def lsOutput (listing : Option (List (List Char))) : List (List Char) :=
  match listing with
  | none => []
  | some entries => entries

/-- Embedding of the `deploy.sh` preflight: exit 1 before docker on empty
output, else proceed to `docker-compose up -d`. -/
def deploySh (listing : Option (List (List Char))) : DeployResult :=
  if lsOutput listing = [] then ⟨1, false⟩ else ⟨0, true⟩

/-- Claim C10: `deploy.sh` terminates with exit status 1 before starting
any Docker container whenever the documents directory is empty or
unreadable, and `docker-compose up` is reached exactly when at least one
document entry is present. -/
theorem deploy_preflight (listing : Option (List (List Char))) :
    ((listing = none ∨ listing = some []) →
      deploySh listing = ⟨1, false⟩) ∧
    ((deploySh listing).docker_compose_up = true ↔ ∃ e es, listing = some (e :: es)) := by
  cases listing with
  | none => simp [deploySh, lsOutput]
  | some entries =>
    cases entries with
    | nil => simp [deploySh, lsOutput]
    | cons e es => simp [deploySh, lsOutput]

/-- Concrete instantiation of `deploy_preflight`: an unreadable directory
exits 1 without starting docker; a directory with one document reaches
`docker-compose up`. -/
theorem deploy_preflight_witness :
    ((none : Option (List (List Char))) = none ∨
      (none : Option (List (List Char))) = some ([] : List (List Char))) ∧
    deploySh none = ⟨1, false⟩ ∧
    (deploySh (some ["notes.txt".toList])).docker_compose_up = true :=
  ⟨Or.inl rfl,
   (deploy_preflight none).1 (Or.inl rfl),
   (deploy_preflight (some ["notes.txt".toList])).2.mpr ⟨"notes.txt".toList, [], rfl⟩⟩

end Cleen
